import Mathlib

/-!
Verification of the Decision-Tree-App repository.

The graph handled by `streamlit_app.py` is a dictionary with a `nodes` list
(each node carrying an `id`, a nested `data` mapping with `label` and optional
numeric `cost`/`benefit`/`value`, and an optional `kind`) and an `edges` list
(each edge carrying `id`, `source`, `target`, an optional `label` and a nested
`data` mapping with an optional `prob`).  Numeric fields are modelled with
exact rationals.  Python functions that can raise are modelled with `Option`
(`none` = an exception escapes).
-/

/-- The nested `data` mapping of a node: `label`, optional `cost`, `benefit`,
`value`. -/
structure NodeData where
  label : String
  cost : Option ℚ
  benefit : Option ℚ
  value : Option ℚ
deriving DecidableEq

/-- A node of the streamlit graph: `id`, nested `data`, optional `kind`
(`n.get("kind")` yields `none` when the key is absent). -/
structure GNode where
  id : String
  data : NodeData
  kind : Option String
deriving DecidableEq

/-- The nested `data` mapping of an edge; `prob` models
`e.get("data", {}).get("prob")`. -/
structure EdgeData where
  prob : Option ℚ
deriving DecidableEq

/-- An edge of the streamlit graph. -/
structure GEdge where
  id : String
  source : String
  target : String
  label : Option String
  data : EdgeData
deriving DecidableEq

/-- The streamlit graph: a `nodes` list and an `edges` list, in insertion
order. -/
structure Graph where
  nodes : List GNode
  edges : List GEdge
deriving DecidableEq

/-- Lookup in `nodes_map = {n["id"]: n for n in graph["nodes"]}`: a Python
dict comprehension keeps the last entry for a duplicated key, hence the
`reverse`. -/
def nodesMapGet (g : Graph) (i : String) : Option GNode :=
  g.nodes.reverse.find? (fun n => n.id == i)

/-- The accumulated `outgoing_probs[src]` of `validate_graph`: the sum of the
explicit `prob` values over the edges leaving `src` (edges without a `prob`
are not added). -/
def outgoingProbs (edges : List GEdge) (src : String) : ℚ :=
  ((edges.filter (fun e => e.source == src)).filterMap (fun e => e.data.prob)).sum

/-- Whether some edge leaving `src` carries an explicit `prob`
(`any(e.get("data", {}).get("prob") is not None for e in graph["edges"] if e["source"] == n["id"])`). -/
def hasExplicitOut (edges : List GEdge) (src : String) : Bool :=
  edges.any (fun e => e.source == src && e.data.prob.isSome)

/-- The tolerance test `0.99 <= total <= 1.01` of `validate_graph`. -/
def inTol (total : ℚ) : Bool :=
  decide ((99 : ℚ) / 100 ≤ total ∧ total ≤ 101 / 100)

/-- The warnings produced by `validate_graph`, by identity and payload instead
of by formatted string: the chance-sum warning carries the node label and the
accumulated total, the Chance→Chance warning the two labels, the self-loop
warning the label of the node. -/
inductive Warning where
  | chanceSum (label : String) (total : ℚ)
  | chanceChance (srcLabel tgtLabel : String)
  | selfLoop (label : String)
deriving DecidableEq

/-- First pass of `validate_graph`: for every node of kind `"chance"` that has
at least one outgoing edge with an explicit probability, emit a warning when
the accumulated total falls outside `[0.99, 1.01]`. -/
def chanceSumWarnings (g : Graph) : List Warning :=
  g.nodes.filterMap (fun n =>
    if n.kind == some "chance" && hasExplicitOut g.edges n.id
        && !inTol (outgoingProbs g.edges n.id) then
      some (Warning.chanceSum n.data.label (outgoingProbs g.edges n.id))
    else none)

/-- Second pass of `validate_graph`: per edge, look up both endpoints in
`nodes_map` (`nodes_map[e["source"]]` raises `KeyError`, modelled by `none`,
when the id is absent), then flag Chance→Chance edges and self-loops, in that
order. -/
def edgePassWarnings (g : Graph) : List GEdge → Option (List Warning)
  | [] => some []
  | e :: es =>
    match nodesMapGet g e.source, nodesMapGet g e.target with
    | some s, some t =>
      let w1 : List Warning :=
        if s.kind == some "chance" && t.kind == some "chance" then
          [Warning.chanceChance s.data.label t.data.label]
        else []
      let w2 : List Warning :=
        if e.source == e.target then [Warning.selfLoop s.data.label] else []
      (edgePassWarnings g es).map (fun ws => w1 ++ w2 ++ ws)
    | _, _ => none

/-- `validate_graph` from `streamlit_app.py`: the chance-sum pass followed by
the per-edge pass; a `KeyError` raised in the second pass aborts the whole
call (the first pass's warnings are lost), modelled by `none`. -/
def validate_graph (g : Graph) : Option (List Warning) :=
  (edgePassWarnings g g.edges).map (fun ws => chanceSumWarnings g ++ ws)

/-- State-passing form of a `validate_graph` call: the session-state graph is
threaded through the call; the body of `validate_graph` only reads the graph
(it never assigns into `graph["nodes"]`, `graph["edges"]` or any nested
field), so the state component comes back as it went in. -/
def validateGraphRun (g : Graph) : Graph × Option (List Warning) :=
  (g, validate_graph g)

/-- Round-half-to-even to an integer, the rounding mode of Python's builtin
`round` (modelled over exact rationals). -/
def roundHalfEven (q : ℚ) : ℤ :=
  let f : ℤ := ⌊q⌋
  let r : ℚ := q - f
  if r < 1 / 2 then f
  else if 1 / 2 < r then f + 1
  else if f % 2 = 0 then f else f + 1

/-- Python's `round(q, 3)` over exact rationals (half-to-even at the third
decimal place). -/
def pyround3 (q : ℚ) : ℚ :=
  (roundHalfEven (q * 1000) : ℚ) / 1000

/-- Whether `e.get("data", {}).get("prob") in [None, 0]` holds for an edge. -/
def probUnsetOrZero (e : GEdge) : Bool :=
  e.data.prob == none || e.data.prob == some 0

/-- The outgoing edges of `src`, in edge insertion order
(`[e for e in graph["edges"] if e["source"] == dn["id"]]`). -/
def outgoingE (edges : List GEdge) (src : String) : List GEdge :=
  edges.filter (fun e => e.source == src)

/-- One iteration of the `for dn in chance_nodes` loop of
`auto_compute_probabilities`: when the chance node `dn` has outgoing edges and
all of them have `prob` missing, `None` or `0`, set each of their `prob`
fields to `round(1.0 / len(outgoing), 3)`. -/
def autoComputeStep (es : List GEdge) (dn : GNode) : List GEdge :=
  let outgoing := outgoingE es dn.id
  if !outgoing.isEmpty && outgoing.all probUnsetOrZero then
    es.map (fun e =>
      if e.source == dn.id then
        { e with data := { prob := some (pyround3 (1 / (outgoing.length : ℚ))) } }
      else e)
  else es

/-- `auto_compute_probabilities` from `streamlit_app.py`: iterate over the
nodes of kind `"chance"` in order, mutating the shared edge list (edges are
modelled as always carrying a `data` mapping, as every edge built by the app
does; without one the assignment `e["data"]["prob"] = ...` would raise). -/
def auto_compute_probabilities (g : Graph) : Graph :=
  { g with edges := (g.nodes.filter (fun n => n.kind == some "chance")).foldl autoComputeStep g.edges }

/-!
The second application, `decision_tree_app.py`, keeps its own tree in session
state: `tree.nodes` is an insertion-ordered dict from node id to node
(modelled as a list of nodes, ids unique as dict keys are), `tree.edges` a
list of `{"from": id, "to": id}` records, and `sim` the running-simulation
state.
-/

/-- A node of the `decision_tree_app` tree: `id`, `label` and a `type` field
(named `ntype` here, `type` being reserved in Lean). -/
structure TNode where
  id : String
  label : String
  ntype : String
deriving DecidableEq

/-- An edge of the `decision_tree_app` tree; the Python keys `from` and `to`
are named `efrom` and `eto` here, `from` being reserved in Lean. -/
structure TEdge where
  efrom : String
  eto : String
deriving DecidableEq

/-- The `decision_tree_app` tree: node map (insertion-ordered) and edge
list. -/
structure DTree where
  nodes : List TNode
  edges : List TEdge
deriving DecidableEq

/-- The simulation state of `decision_tree_app`. -/
structure Sim where
  active : Bool
  current : Option String
  path : List String
deriving DecidableEq

/-- The full session state of `decision_tree_app`: the tree and the
simulation state. -/
structure AppState where
  tree : DTree
  sim : Sim
deriving DecidableEq

/-- `reset_sim` from `decision_tree_app.py`. -/
def reset_sim : Sim :=
  { active := false, current := none, path := [] }

/-- `add_edge` from `decision_tree_app.py`: refuse a self-loop, refuse a
duplicate (same `from` and `to`), otherwise append `{"from": src, "to": dst}`
to the edge list (the `st.warning`/`st.info` calls are UI output only). -/
def add_edge (s : AppState) (src dst : String) : AppState :=
  if src == dst then s
  else if s.tree.edges.any (fun e => e.efrom == src && e.eto == dst) then s
  else { s with tree := { s.tree with edges := s.tree.edges ++ [{ efrom := src, eto := dst }] } }

/-- `delete_node` from `decision_tree_app.py`: pop the node from the node
map, drop every edge whose `from` or `to` references it, and reset the
simulation when its `current` node or recorded `path` used the node. -/
def delete_node (s : AppState) (node_id : String) : AppState :=
  let tree' : DTree :=
    { nodes := s.tree.nodes.filter (fun n => !(n.id == node_id)),
      edges := s.tree.edges.filter (fun e => !(e.efrom == node_id) && !(e.eto == node_id)) }
  let sim' : Sim :=
    if s.sim.current == some node_id || s.sim.path.contains node_id then reset_sim
    else s.sim
  { tree := tree', sim := sim' }

/-!
The `DecisionTree` class (`from_graph`, `pathways`) is imported by
`streamlit_app.py` from `decision_tree_app` but its definition is not present
under `src/`; the same holds for the Monte Carlo simulator.  Both are
modelled below from the specification (sections 4.1, 4.2 and 4.4).
-/

/-- Lookup of a node by id during normalization (`first entry wins`; the
spec's data model makes ids unique, so the direction is immaterial). -/
def findNode (g : Graph) (i : String) : Option GNode :=
  g.nodes.find? (fun n => n.id == i)

/-- Modelled from the spec: the normalization step of `DecisionTree.from_graph`
(absent from `src/`): malformed edges, whose `source` or `target` references a
nonexistent node, are skipped (spec sections 4.1 and 7). -/
def normEdges (g : Graph) : List GEdge :=
  g.edges.filter (fun e => (findNode g e.source).isSome && (findNode g e.target).isSome)

/-- Modelled from the spec: the outgoing-edges-by-source index built by
normalization, in edge insertion order. -/
def outIndex (g : Graph) (src : String) : List GEdge :=
  (normEdges g).filter (fun e => e.source == src)

/-- Modelled from the spec: root detection of `DecisionTree.from_graph`
(absent from `src/`): a node with no incoming edges per the incoming index. -/
def roots (g : Graph) : List GNode :=
  g.nodes.filter (fun n => (normEdges g).all (fun e => !(e.target == n.id)))

/-- A pathway emitted by the enumerator: step labels, cumulative probability,
cost, benefit and payoff. -/
structure Pathway where
  steps : List String
  probability : ℚ
  cost : ℚ
  benefit : ℚ
  value : ℚ
deriving DecidableEq

/-- Sequence a list of optional pathway lists, concatenating the results in
order; `none` anywhere (an exception in a recursive call) propagates. -/
def seqJoin : List (Option (List Pathway)) → Option (List Pathway)
  | [] => some []
  | none :: _ => none
  | some ps :: rest => (seqJoin rest).map (fun qs => ps ++ qs)

/-- Modelled from the spec: the depth-first enumeration of
`DecisionTree.pathways` (absent from `src/`), spec section 4.2.  At a node:
append its label to the path, add its `cost`/`benefit`/`value` (0.0 when
absent); with no outgoing edges emit one pathway; otherwise, per outgoing edge
in insertion order, append the bracketed edge label when present, multiply the
probability by the edge's `prob` when present (else by 1.0), and recurse into
the target.  The spec leaves cycles to unbounded recursion; `fuel` bounds the
recursion depth and `none` models nontermination (fuel exhausted). -/
def enumFrom (g : Graph) : ℕ → GNode → List String → ℚ → ℚ → ℚ → ℚ → Option (List Pathway)
  | 0, _, _, _, _, _, _ => none
  | Nat.succ fuel, n, steps0, p, c0, b0, v0 =>
    let steps := steps0 ++ [n.data.label]
    let c := c0 + n.data.cost.getD 0
    let b := b0 + n.data.benefit.getD 0
    let v := v0 + n.data.value.getD 0
    let outs := outIndex g n.id
    if outs.isEmpty then
      some [{ steps := steps, probability := p, cost := c, benefit := b, value := v }]
    else
      seqJoin (outs.map (fun e =>
        let steps' := match e.label with
          | some l => steps ++ ["[" ++ l ++ "]"]
          | none => steps
        let p' := p * e.data.prob.getD 1
        match findNode g e.target with
        | some t => enumFrom g fuel t steps' p' c b v
        | none => some []))

/-- Modelled from the spec: the pathways enumerated from one root.  A depth
of `g.nodes.length + 1` is enough fuel for any acyclic graph, where a
traversal can visit each node at most once. -/
def pathwaysFrom (g : Graph) (r : GNode) : Option (List Pathway) :=
  enumFrom g (g.nodes.length + 1) r [] 1 0 0 0

/-- Modelled from the spec: `DecisionTree.pathways` (absent from `src/`):
depth-first enumeration started from each detected root, results concatenated
in root order. -/
def pathways (g : Graph) : Option (List Pathway) :=
  seqJoin ((roots g).map (fun r => pathwaysFrom g r))

/-- A maximal edge-trace of the graph: the sequence of normalized edges
traversed from a start node down to a terminal node (no outgoing edges). -/
inductive EdgeTrace (g : Graph) : String → List GEdge → Prop
  | terminal (s : String) : outIndex g s = [] → EdgeTrace g s []
  | step (s : String) (e : GEdge) (es : List GEdge) :
      e ∈ outIndex g s → EdgeTrace g e.target es → EdgeTrace g s (e :: es)

/-- The product of the explicit weights along a list of edges; an edge
without an explicit weight contributes a factor of 1.0. -/
def weightProd (es : List GEdge) : ℚ :=
  (es.map (fun e => e.data.prob.getD 1)).prod

/-!
The Monte Carlo simulator, spec section 4.4.  The random source is an
explicit stream of unit-interval rationals (spec section 9 re-architects the
implicit global random source as a pluggable one).
-/

/-- Modelled from the spec: categorical sampling by cumulative weights over a
nonempty edge list (head and tail given separately): walk the edges
subtracting each weight from the scaled draw until it goes below the current
weight; the last edge absorbs the remainder. -/
def pickCum (w : GEdge → ℚ) : ℚ → GEdge → List GEdge → GEdge
  | _, e, [] => e
  | x, e, e' :: es => if x < w e then e else pickCum w (x - w e) e' es

/-- Modelled from the spec: uniform sampling among the outgoing edges, a draw
`u` from the unit interval selecting index `⌊u * k⌋` (clamped into range). -/
def pickUniform (u : ℚ) (e : GEdge) (es : List GEdge) : GEdge :=
  (e :: es).getD (min ⌊u * (es.length + 1 : ℚ)⌋.toNat es.length) e

/-- Modelled from the spec: edge selection of one Monte Carlo step over a
nonempty outgoing list (spec section 4.4): when at least one edge carries an
explicit `prob`, missing `prob` counts as weight 0.0; a nonpositive weight sum
falls back to uniform sampling; otherwise sample the categorical distribution
obtained by normalizing the weights (realized by scaling the unit draw by the
total).  With no explicit `prob` at all, sample uniformly. -/
def selectEdge (u : ℚ) (e : GEdge) (es : List GEdge) : GEdge :=
  if (e :: es).any (fun x => x.data.prob.isSome) then
    let w : GEdge → ℚ := fun x => x.data.prob.getD 0
    let total := ((e :: es).map w).sum
    if total ≤ 0 then pickUniform u e es
    else pickCum w (u * total) e es
  else pickUniform u e es

/-- Modelled from the spec: the bounded walk of one Monte Carlo trial (absent
from `src/`): up to `fuel` times, stop at a terminal node (no outgoing
edges), otherwise sample one outgoing edge with the `i`-th draw of the random
stream, advance to its target and append it to the path. -/
def trialWalk (g : Graph) (rng : ℕ → ℚ) : ℕ → ℕ → String → List String → List String
  | 0, _, _, path => path
  | Nat.succ fuel, i, cur, path =>
    match outIndex g cur with
    | [] => path
    | e :: es =>
      let chosen := selectEdge (rng i) e es
      trialWalk g rng fuel (i + 1) chosen.target (path ++ [chosen.target])

/-- Modelled from the spec: one Monte Carlo trial from `start` with per-trial
step limit `M`: initialize `path = [start]` and walk at most `M` steps. -/
def simulateTrial (g : Graph) (start : String) (M : ℕ) (rng : ℕ → ℚ) : List String :=
  trialWalk g rng M 0 start [start]

/-!
Claims C7, C5, C8, C3.
-/

/-- C7: `validate_graph` never mutates the graph: threading the session-state
graph through the call returns it unchanged, alongside the advisory warning
list. -/
theorem c7_validate_graph_pure (g : Graph) :
    (validateGraphRun g).1 = g ∧ (validateGraphRun g).2 = validate_graph g :=
  ⟨rfl, rfl⟩

theorem trialWalk_length_le (g : Graph) (rng : ℕ → ℚ) :
    ∀ (fuel i : ℕ) (cur : String) (path : List String),
      (trialWalk g rng fuel i cur path).length ≤ path.length + fuel := by
  intro fuel
  induction fuel with
  | zero => intro i cur path; simp [trialWalk]
  | succ fuel ih =>
    intro i cur path
    unfold trialWalk
    cases h : outIndex g cur with
    | nil => simp
    | cons e es =>
      calc (trialWalk g rng fuel (i + 1) (selectEdge (rng i) e es).target
              (path ++ [(selectEdge (rng i) e es).target])).length
          ≤ (path ++ [(selectEdge (rng i) e es).target]).length + fuel := ih _ _ _
        _ = path.length + (fuel + 1) := by simp [List.length_append]; omega

/-- C5: every Monte Carlo trial with per-trial step limit `M` performs at most
`M` edge-selection steps and records a path of at most `M + 1` nodes, on any
graph (cyclic or not), any start node and any random stream; the walk is a
total function, so no trial loops forever. -/
theorem c5_trial_step_limit (g : Graph) (start : String) (M : ℕ) (rng : ℕ → ℚ) :
    (simulateTrial g start M rng).length ≤ M + 1 := by
  have h := trialWalk_length_le g rng M 0 start [start]
  simpa [simulateTrial, Nat.add_comm] using h

/-- C8: `add_edge` leaves the state unchanged on a self-loop or on a duplicate
edge, and otherwise appends exactly the one edge `{from: src, to: dst}` at the
end of the edge list, changing nothing else. -/
theorem c8_add_edge_spec (s : AppState) (src dst : String) :
    (src = dst → add_edge s src dst = s) ∧
    ((∃ e ∈ s.tree.edges, e.efrom = src ∧ e.eto = dst) → add_edge s src dst = s) ∧
    (src ≠ dst → (∀ e ∈ s.tree.edges, ¬(e.efrom = src ∧ e.eto = dst)) →
      (add_edge s src dst).tree.edges = s.tree.edges ++ [{ efrom := src, eto := dst }] ∧
      (add_edge s src dst).tree.nodes = s.tree.nodes ∧
      (add_edge s src dst).sim = s.sim) := by
  refine ⟨?_, ?_, ?_⟩
  · intro h; simp [add_edge, h]
  · rintro ⟨e, he, h1, h2⟩
    unfold add_edge
    split
    · rfl
    · split
      · rfl
      · rename_i hdup
        exact absurd (List.any_eq_true.mpr ⟨e, he, by simp [h1, h2]⟩) hdup
  · intro hne hnd
    unfold add_edge
    split
    · rename_i h; exact absurd (by simpa using h) hne
    · split
      · rename_i hdup
        obtain ⟨e, he, hcond⟩ := List.any_eq_true.mp hdup
        rw [Bool.and_eq_true] at hcond
        exact absurd ⟨by simpa using hcond.1, by simpa using hcond.2⟩ (hnd e he)
      · exact ⟨rfl, rfl, rfl⟩

/-- Witness for C8 at a concrete state: a self-loop and a duplicate are
refused, and a fresh edge is appended. -/
theorem c8_add_edge_spec_witness :
    (add_edge ⟨⟨[], [⟨"a", "b"⟩]⟩, ⟨false, none, []⟩⟩ "a" "a" = ⟨⟨[], [⟨"a", "b"⟩]⟩, ⟨false, none, []⟩⟩) ∧
    (add_edge ⟨⟨[], [⟨"a", "b"⟩]⟩, ⟨false, none, []⟩⟩ "a" "b" = ⟨⟨[], [⟨"a", "b"⟩]⟩, ⟨false, none, []⟩⟩) ∧
    (add_edge ⟨⟨[], [⟨"a", "b"⟩]⟩, ⟨false, none, []⟩⟩ "b" "c" |>.tree.edges) = [⟨"a", "b"⟩, ⟨"b", "c"⟩] := by
  refine ⟨?_, ?_, ?_⟩
  · exact (c8_add_edge_spec ⟨⟨[], [⟨"a", "b"⟩]⟩, ⟨false, none, []⟩⟩ "a" "a").1 rfl
  · exact (c8_add_edge_spec ⟨⟨[], [⟨"a", "b"⟩]⟩, ⟨false, none, []⟩⟩ "a" "b").2.1
      ⟨⟨"a", "b"⟩, by simp⟩
  · have h := (c8_add_edge_spec ⟨⟨[], [⟨"a", "b"⟩]⟩, ⟨false, none, []⟩⟩ "b" "c").2.2
      (by decide) (by decide)
    exact h.1

/-!
Claim C3: the validator on edges referencing nonexistent nodes.
-/

/-- A graph with a single node `a` and an edge `a → ghost` whose target names
no existing node. -/
def c3Graph : Graph :=
  ⟨[⟨"a", ⟨"A", none, none, none⟩, some "decision"⟩],
   [⟨"e1", "a", "ghost", none, ⟨none⟩⟩]⟩

/-- Counterexample to C3: `c3Graph` contains an edge whose target id names no
existing node, and `validate_graph` raises a `KeyError` on it
(`nodes_map[e["target"]]`), modelled by `none`: no warning list is returned at
all, rather than the problem being surfaced as a warning. -/
theorem c3_counterexample :
    (∃ e ∈ c3Graph.edges, nodesMapGet c3Graph e.target = none) ∧
    validate_graph c3Graph = none := by
  constructor
  · exact ⟨⟨"e1", "a", "ghost", none, ⟨none⟩⟩, by decide, by decide⟩
  · decide

theorem edgePassWarnings_eq_none (g : Graph) :
    ∀ es : List GEdge,
      (∃ e ∈ es, nodesMapGet g e.source = none ∨ nodesMapGet g e.target = none) →
      edgePassWarnings g es = none := by
  intro es
  induction es with
  | nil => rintro ⟨e, he, _⟩; cases he
  | cons e es ih =>
    rintro ⟨e', he', hbad⟩
    rcases List.mem_cons.mp he' with rfl | hmem
    · unfold edgePassWarnings
      rcases hbad with hb | hb
      · rw [hb]
      · rw [hb]
        cases nodesMapGet g e'.source <;> simp_all
    · unfold edgePassWarnings
      cases nodesMapGet g e.source <;> cases nodesMapGet g e.target <;>
        simp [ih ⟨e', hmem, hbad⟩]

/-- C3 as amended: when any edge's `source` or `target` id names no existing
node, `validate_graph` raises a `KeyError` at that edge (modelled by `none`)
instead of surfacing the problem as a warning; no warning list is produced. -/
theorem c3_dangling_edge_raises (g : Graph)
    (h : ∃ e ∈ g.edges, nodesMapGet g e.source = none ∨ nodesMapGet g e.target = none) :
    validate_graph g = none := by
  unfold validate_graph
  rw [edgePassWarnings_eq_none g g.edges h]
  rfl

/-- Witness for the amended C3 at the concrete graph `c3Graph`. -/
theorem c3_dangling_edge_raises_witness : validate_graph c3Graph = none :=
  c3_dangling_edge_raises c3Graph
    ⟨⟨"e1", "a", "ghost", none, ⟨none⟩⟩, by decide, Or.inr (by decide)⟩

/-!
Claim C2: the probability-sum warning.
-/

/-- A graph whose root `d` is a decision node with a single outgoing edge of
explicit probability `0.5`. -/
def c2Graph : Graph :=
  ⟨[⟨"d", ⟨"D", none, none, none⟩, some "decision"⟩,
    ⟨"b", ⟨"B", none, none, none⟩, some "outcome"⟩],
   [⟨"e1", "d", "b", none, ⟨some (1 / 2)⟩⟩]⟩

/-- Counterexample to C2: the decision node `d` of `c2Graph` carries an
explicit outgoing probability summing to `0.5`, off from `1.0` by far more
than `0.01`, yet `validate_graph` returns no warning at all: the sum check
covers only nodes of kind `"chance"`, never decision nodes. -/
theorem c2_counterexample :
    (⟨"d", ⟨"D", none, none, none⟩, some "decision"⟩ : GNode) ∈ c2Graph.nodes ∧
    hasExplicitOut c2Graph.edges "d" = true ∧
    outgoingProbs c2Graph.edges "d" = 1 / 2 ∧
    inTol (outgoingProbs c2Graph.edges "d") = false ∧
    validate_graph c2Graph = some [] := by
  refine ⟨by decide, by decide, ?_, ?_, ?_⟩
  · simp [outgoingProbs, c2Graph]
  · simp [inTol, outgoingProbs, c2Graph]; norm_num
  · simp [validate_graph, edgePassWarnings, nodesMapGet, chanceSumWarnings, c2Graph,
      hasExplicitOut, inTol, outgoingProbs]

theorem mem_chanceSumWarnings (g : Graph) (l : String) (t : ℚ) :
    Warning.chanceSum l t ∈ chanceSumWarnings g ↔
      ∃ m ∈ g.nodes, m.kind = some "chance" ∧ hasExplicitOut g.edges m.id = true ∧
        inTol (outgoingProbs g.edges m.id) = false ∧
        m.data.label = l ∧ outgoingProbs g.edges m.id = t := by
  unfold chanceSumWarnings
  rw [List.mem_filterMap]
  constructor
  · rintro ⟨m, hm, hf⟩
    by_cases hc : (m.kind == some "chance" && hasExplicitOut g.edges m.id
        && !inTol (outgoingProbs g.edges m.id)) = true
    · rw [if_pos hc] at hf
      injection hf with hf
      injection hf with h1 h2
      simp only [Bool.and_eq_true, beq_iff_eq, Bool.not_eq_true'] at hc
      exact ⟨m, hm, hc.1.1, hc.1.2, hc.2, h1, h2⟩
    · rw [if_neg hc] at hf; cases hf
  · rintro ⟨m, hm, hk, he, ht, hl, hp⟩
    refine ⟨m, hm, ?_⟩
    rw [if_pos (by simp [hk, he, ht])]
    rw [hl, hp]

theorem edgePassWarnings_no_chanceSum (g : Graph) :
    ∀ (es : List GEdge) (ws : List Warning), edgePassWarnings g es = some ws →
      ∀ l t, Warning.chanceSum l t ∉ ws := by
  intro es
  induction es with
  | nil =>
    intro ws hws l t
    unfold edgePassWarnings at hws
    injection hws with h; subst h; simp
  | cons e es ih =>
    intro ws hws l t hmem
    unfold edgePassWarnings at hws
    cases hs : nodesMapGet g e.source with
    | none => rw [hs] at hws; cases hws
    | some s =>
      cases htg : nodesMapGet g e.target with
      | none => rw [hs, htg] at hws; cases hws
      | some tn =>
        rw [hs, htg] at hws
        simp only [Option.map_eq_some'] at hws
        obtain ⟨ws', hws', rfl⟩ := hws
        simp only [List.mem_append] at hmem
        rcases hmem with (h1 | h2) | h3
        · split at h1 <;> simp_all
        · split at h2 <;> simp_all
        · exact ih ws' hws' l t h3

/-- C2 as amended: for every node of kind `"chance"` that has at least one
outgoing edge carrying an explicit probability, whenever `validate_graph`
returns a warning list at all it contains the warning naming that node if and
only if the explicit probabilities on its outgoing edges sum outside the
`[0.99, 1.01]` tolerance band.  (The claim's inclusion of decision nodes
fails: only `"chance"`-kind nodes are checked.) -/
theorem c2_chance_sum_warning_iff (g : Graph) (n : GNode) (ws : List Warning)
    (hn : n ∈ g.nodes) (hk : n.kind = some "chance")
    (he : hasExplicitOut g.edges n.id = true)
    (hws : validate_graph g = some ws) :
    Warning.chanceSum n.data.label (outgoingProbs g.edges n.id) ∈ ws ↔
      ¬((99 : ℚ) / 100 ≤ outgoingProbs g.edges n.id ∧
        outgoingProbs g.edges n.id ≤ 101 / 100) := by
  unfold validate_graph at hws
  simp only [Option.map_eq_some'] at hws
  obtain ⟨ews, hews, rfl⟩ := hws
  constructor
  · intro hmem
    rcases List.mem_append.mp hmem with hcs | hep
    · obtain ⟨m, _, _, _, htf, _, hp⟩ := (mem_chanceSumWarnings g _ _).mp hcs
      rw [hp] at htf
      simpa [inTol] using htf
    · exact absurd hep (edgePassWarnings_no_chanceSum g g.edges ews hews _ _)
  · intro hout
    apply List.mem_append.mpr
    left
    exact (mem_chanceSumWarnings g _ _).mpr
      ⟨n, hn, hk, he, by simpa [inTol] using hout, rfl, rfl⟩

/-- A graph whose chance node `a` has one outgoing edge of explicit
probability `0.5`, summing far outside the tolerance. -/
def c2WGraph : Graph :=
  ⟨[⟨"a", ⟨"A", none, none, none⟩, some "chance"⟩,
    ⟨"b", ⟨"B", none, none, none⟩, some "outcome"⟩],
   [⟨"e1", "a", "b", none, ⟨some (1 / 2)⟩⟩]⟩

/-- Witness for the amended C2: at `c2WGraph` the chance node `a` has explicit
outgoing probabilities summing to `0.5` and its warning is present. -/
theorem c2_chance_sum_warning_iff_witness :
    Warning.chanceSum "A" (outgoingProbs c2WGraph.edges "a")
        ∈ [Warning.chanceSum "A" (1 / 2)] ↔
      ¬((99 : ℚ) / 100 ≤ outgoingProbs c2WGraph.edges "a" ∧
        outgoingProbs c2WGraph.edges "a" ≤ 101 / 100) :=
  c2_chance_sum_warning_iff c2WGraph ⟨"a", ⟨"A", none, none, none⟩, some "chance"⟩
    [Warning.chanceSum "A" (1 / 2)] (by decide) rfl (by decide)
    (by have h1 : inTol ((2 : ℚ)⁻¹) = false := by norm_num [inTol]
        simp [validate_graph, edgePassWarnings, nodesMapGet, chanceSumWarnings, c2WGraph,
          hasExplicitOut, outgoingProbs, h1, List.filterMap_cons, List.filterMap_nil,
          List.filter_cons, List.filter_nil])

/-!
Claim C6: self-loop and Chance→Chance warnings, and the zero-warning case.
-/

/-- Recognizer for the self-loop warning. -/
def isSelfLoopW : Warning → Bool
  | Warning.selfLoop _ => true
  | _ => false

/-- Recognizer for the Chance→Chance warning. -/
def isCCW : Warning → Bool
  | Warning.chanceChance _ _ => true
  | _ => false

/-- Whether both endpoints of an edge resolve, via `nodes_map`, to nodes of
kind `"chance"`. -/
def chanceEnds (g : Graph) (e : GEdge) : Bool :=
  match nodesMapGet g e.source, nodesMapGet g e.target with
  | some s, some t => s.kind == some "chance" && t.kind == some "chance"
  | _, _ => false

theorem chanceSumWarnings_shape (g : Graph) :
    ∀ w ∈ chanceSumWarnings g, isSelfLoopW w = false ∧ isCCW w = false := by
  intro w hw
  obtain ⟨n, _, hf⟩ := List.mem_filterMap.mp hw
  by_cases hc : (n.kind == some "chance" && hasExplicitOut g.edges n.id
      && !inTol (outgoingProbs g.edges n.id)) = true
  · rw [if_pos hc] at hf
    injection hf with hf
    subst hf
    exact ⟨rfl, rfl⟩
  · rw [if_neg hc] at hf; cases hf

theorem edgePassWarnings_counts (g : Graph) :
    ∀ es : List GEdge,
      (∀ e ∈ es, (nodesMapGet g e.source).isSome ∧ (nodesMapGet g e.target).isSome) →
      ∃ ews, edgePassWarnings g es = some ews ∧
        ews.countP isSelfLoopW = es.countP (fun e => e.source == e.target) ∧
        ews.countP isCCW = es.countP (fun e => chanceEnds g e) ∧
        ∀ w ∈ ews, isSelfLoopW w = true ∨ isCCW w = true := by
  intro es
  induction es with
  | nil =>
    intro _
    exact ⟨[], rfl, by simp, by simp, by simp⟩
  | cons e es ih =>
    intro h
    obtain ⟨hs, ht⟩ := h e (List.mem_cons_self e es)
    obtain ⟨s, hs⟩ := Option.isSome_iff_exists.mp hs
    obtain ⟨t, ht⟩ := Option.isSome_iff_exists.mp ht
    obtain ⟨ews, hews, hsl, hcc, hshape⟩ := ih (fun e' he' => h e' (List.mem_cons_of_mem e he'))
    refine ⟨(if s.kind == some "chance" && t.kind == some "chance" then
        [Warning.chanceChance s.data.label t.data.label] else []) ++
      (if e.source == e.target then [Warning.selfLoop s.data.label] else []) ++ ews,
      ?_, ?_, ?_, ?_⟩
    · unfold edgePassWarnings
      rw [hs, ht, hews]
      rfl
    · rw [List.countP_append, List.countP_append, List.countP_cons]
      have hce : chanceEnds g e = (s.kind == some "chance" && t.kind == some "chance") := by
        simp [chanceEnds, hs, ht]
      split <;> split <;> simp_all [isSelfLoopW, isCCW] <;> omega
    · rw [List.countP_append, List.countP_append, List.countP_cons]
      have hce : chanceEnds g e = (s.kind == some "chance" && t.kind == some "chance") := by
        simp [chanceEnds, hs, ht]
      split <;> split <;> simp_all [isSelfLoopW, isCCW] <;> omega
    · intro w hw
      simp only [List.mem_append] at hw
      rcases hw with (h1 | h2) | h3
      · right; split at h1 <;> simp_all [isCCW]
      · left; split at h2 <;> simp_all [isSelfLoopW]
      · exact hshape w h3

/-- C6: for every graph whose edges all reference existing nodes,
`validate_graph` returns a warning list; that list carries exactly one
self-loop warning per self-loop edge and exactly one Chance→Chance warning
per edge whose endpoints are both of kind `"chance"`, and it is empty when
the graph has no self-loop, no Chance→Chance edge and no chance node whose
explicit outgoing probabilities sum outside the tolerance. -/
theorem c6_edge_warnings (g : Graph)
    (h : ∀ e ∈ g.edges, (nodesMapGet g e.source).isSome ∧ (nodesMapGet g e.target).isSome) :
    (validate_graph g).isSome = true ∧
    ∀ ws, validate_graph g = some ws →
      ws.countP isSelfLoopW = g.edges.countP (fun e => e.source == e.target) ∧
      ws.countP isCCW = g.edges.countP (fun e => chanceEnds g e) ∧
      ((g.edges.all (fun e => !(e.source == e.target)) = true ∧
        g.edges.all (fun e => !chanceEnds g e) = true ∧
        g.nodes.all (fun n => !(n.kind == some "chance" && hasExplicitOut g.edges n.id
          && !inTol (outgoingProbs g.edges n.id))) = true) →
       ws = []) := by
  obtain ⟨ews, hews, hsl, hcc, hshape⟩ := edgePassWarnings_counts g g.edges h
  have hvg : validate_graph g = some (chanceSumWarnings g ++ ews) := by
    unfold validate_graph
    rw [hews]
    rfl
  refine ⟨by rw [hvg]; rfl, ?_⟩
  intro ws hws
  rw [hvg] at hws
  injection hws with hws
  subst hws
  have hcs0 : ∀ p : Warning → Bool, (∀ w ∈ chanceSumWarnings g, p w = false) →
      (chanceSumWarnings g).countP p = 0 := by
    intro p hp
    exact List.countP_eq_zero.mpr (fun w hw => by simp [hp w hw])
  refine ⟨?_, ?_, ?_⟩
  · rw [List.countP_append, hsl,
      hcs0 isSelfLoopW (fun w hw => (chanceSumWarnings_shape g w hw).1)]
    omega
  · rw [List.countP_append, hcc,
      hcs0 isCCW (fun w hw => (chanceSumWarnings_shape g w hw).2)]
    omega
  · rintro ⟨hA, hB, hC⟩
    have hcse : chanceSumWarnings g = [] := by
      apply List.filterMap_eq_nil_iff.mpr
      intro n hn
      have := List.all_eq_true.mp hC n hn
      simp only [Bool.not_eq_true'] at this
      rw [if_neg (by simp [this])]
    have hewse : ews = [] := by
      have hsl0 : ews.countP isSelfLoopW = 0 := by
        rw [hsl]
        exact List.countP_eq_zero.mpr (fun e he => by
          have := List.all_eq_true.mp hA e he
          simp_all)
      have hcc0 : ews.countP isCCW = 0 := by
        rw [hcc]
        exact List.countP_eq_zero.mpr (fun e he => by
          have := List.all_eq_true.mp hB e he
          simp_all)
      apply List.eq_nil_iff_forall_not_mem.mpr
      intro w hw
      rcases hshape w hw with h1 | h1
      · exact absurd h1 (by simpa using List.countP_eq_zero.mp hsl0 w hw)
      · exact absurd h1 (by simpa using List.countP_eq_zero.mp hcc0 w hw)
    rw [hcse, hewse]
    rfl

/-- A graph with a self-loop on the chance node `a` (also a Chance→Chance
edge), a Chance→Chance edge `a → b` and a harmless edge `b → c`. -/
def c6WGraph : Graph :=
  ⟨[⟨"a", ⟨"A", none, none, none⟩, some "chance"⟩,
    ⟨"b", ⟨"B", none, none, none⟩, some "chance"⟩,
    ⟨"c", ⟨"C", none, none, none⟩, some "outcome"⟩],
   [⟨"e1", "a", "a", none, ⟨none⟩⟩,
    ⟨"e2", "a", "b", none, ⟨none⟩⟩,
    ⟨"e3", "b", "c", none, ⟨none⟩⟩]⟩

/-- Witness for C6 at `c6WGraph`: one self-loop warning for its one self-loop
edge, two Chance→Chance warnings for its two Chance→Chance edges. -/
theorem c6_edge_warnings_witness :
    (validate_graph c6WGraph).isSome = true ∧
    ([Warning.chanceChance "A" "A", Warning.selfLoop "A",
      Warning.chanceChance "A" "B"].countP isSelfLoopW
        = c6WGraph.edges.countP (fun e => e.source == e.target)) ∧
    ([Warning.chanceChance "A" "A", Warning.selfLoop "A",
      Warning.chanceChance "A" "B"].countP isCCW
        = c6WGraph.edges.countP (fun e => chanceEnds c6WGraph e)) := by
  have h := c6_edge_warnings c6WGraph (by decide)
  have h2 := h.2 [Warning.chanceChance "A" "A", Warning.selfLoop "A",
    Warning.chanceChance "A" "B"] (by decide)
  exact ⟨h.1, h2.1, h2.2.1⟩

/-!
Claim C9: `delete_node`.
-/

/-- C9: `delete_node` removes the node and exactly the edges touching it,
preserves all other nodes and edges in their original order, resets the
simulation exactly when its current node or recorded path used the deleted
id, and preserves the invariant that every edge's endpoints reference
existing nodes. -/
theorem c9_delete_node_spec (s : AppState) (node_id : String) :
    (∀ n ∈ (delete_node s node_id).tree.nodes, n.id ≠ node_id) ∧
    List.Sublist (delete_node s node_id).tree.nodes s.tree.nodes ∧
    (∀ n ∈ s.tree.nodes, n.id ≠ node_id → n ∈ (delete_node s node_id).tree.nodes) ∧
    (∀ e ∈ (delete_node s node_id).tree.edges, e.efrom ≠ node_id ∧ e.eto ≠ node_id) ∧
    List.Sublist (delete_node s node_id).tree.edges s.tree.edges ∧
    (∀ e ∈ s.tree.edges, e.efrom ≠ node_id → e.eto ≠ node_id →
      e ∈ (delete_node s node_id).tree.edges) ∧
    ((s.sim.current = some node_id ∨ node_id ∈ s.sim.path) →
      (delete_node s node_id).sim = reset_sim) ∧
    (¬(s.sim.current = some node_id ∨ node_id ∈ s.sim.path) →
      (delete_node s node_id).sim = s.sim) ∧
    ((∀ e ∈ s.tree.edges, (∃ n ∈ s.tree.nodes, n.id = e.efrom) ∧
        (∃ n ∈ s.tree.nodes, n.id = e.eto)) →
      ∀ e ∈ (delete_node s node_id).tree.edges,
        (∃ n ∈ (delete_node s node_id).tree.nodes, n.id = e.efrom) ∧
        (∃ n ∈ (delete_node s node_id).tree.nodes, n.id = e.eto)) := by
  refine ⟨?_, ?_, ?_, ?_, ?_, ?_, ?_, ?_, ?_⟩
  · intro n hn
    have := (List.mem_filter.mp hn).2
    simpa using this
  · exact List.filter_sublist _
  · intro n hn hne
    exact List.mem_filter.mpr ⟨hn, by simpa using hne⟩
  · intro e he
    have h2 := (List.mem_filter.mp he).2
    rw [Bool.and_eq_true] at h2
    exact ⟨by simpa using h2.1, by simpa using h2.2⟩
  · exact List.filter_sublist _
  · intro e he h1 h2
    exact List.mem_filter.mpr ⟨he, by simp [h1, h2]⟩
  · intro h
    show (if (s.sim.current == some node_id || s.sim.path.contains node_id) = true
        then reset_sim else s.sim) = reset_sim
    rw [if_pos (by rcases h with h | h; all_goals simp [h, List.elem_iff])]
  · intro h
    push_neg at h
    show (if (s.sim.current == some node_id || s.sim.path.contains node_id) = true
        then reset_sim else s.sim) = s.sim
    rw [if_neg (by simp [List.elem_iff, h.1, h.2])]
  · intro hinv e he
    have hef : e.efrom ≠ node_id ∧ e.eto ≠ node_id := by
      have h2 := (List.mem_filter.mp he).2
      rw [Bool.and_eq_true] at h2
      exact ⟨by simpa using h2.1, by simpa using h2.2⟩
    have hee : e ∈ s.tree.edges := (List.mem_filter.mp he).1
    obtain ⟨⟨n1, hn1, hid1⟩, ⟨n2, hn2, hid2⟩⟩ := hinv e hee
    refine ⟨⟨n1, ?_, hid1⟩, ⟨n2, ?_, hid2⟩⟩
    · exact List.mem_filter.mpr ⟨hn1, by simp [hid1, hef.1]⟩
    · exact List.mem_filter.mpr ⟨hn2, by simp [hid2, hef.2]⟩

/-- Witness for C9 at a concrete state: deleting node `a` from a two-node
tree with edges `a → b` and `b → b` and a simulation sitting on `a`. -/
theorem c9_delete_node_spec_witness :
    (∀ n ∈ (delete_node ⟨⟨[⟨"a", "A", "event"⟩, ⟨"b", "B", "outcome"⟩],
        [⟨"a", "b"⟩, ⟨"b", "b"⟩]⟩, ⟨true, some "a", ["a"]⟩⟩ "a").tree.nodes,
      n.id ≠ "a") ∧
    (delete_node ⟨⟨[⟨"a", "A", "event"⟩, ⟨"b", "B", "outcome"⟩],
        [⟨"a", "b"⟩, ⟨"b", "b"⟩]⟩, ⟨true, some "a", ["a"]⟩⟩ "a").sim = reset_sim := by
  have h := c9_delete_node_spec ⟨⟨[⟨"a", "A", "event"⟩, ⟨"b", "B", "outcome"⟩],
    [⟨"a", "b"⟩, ⟨"b", "b"⟩]⟩, ⟨true, some "a", ["a"]⟩⟩ "a"
  exact ⟨h.1, h.2.2.2.2.2.2.1 (Or.inl rfl)⟩

/-!
Claim C10: `auto_compute_probabilities` refines a one-pass per-edge map.
-/

/-- Following the claim's words (the refinement target): the condition under
which an edge's probability is auto-assigned — its source is a chance node
with at least one outgoing edge, all of whose outgoing edges have `prob`
missing, `None` or `0`. -/
def chanceAllUnset (g : Graph) (s : String) : Bool :=
  g.nodes.any (fun n => n.kind == some "chance" && n.id == s) &&
  !(outgoingE g.edges s).isEmpty &&
  (outgoingE g.edges s).all probUnsetOrZero

/-- Following the claim's words: the assigned value `round(1/k, 3)` where `k`
is the number of outgoing edges of the edge's source in the graph. -/
def setAutoProb (g : Graph) (e : GEdge) : GEdge :=
  { e with data := { prob := some (pyround3 (1 / ((outgoingE g.edges e.source).length : ℚ))) } }

/-- Following the claim's words: a single pass over the edges, setting
`prob = round(1/k, 3)` exactly on the outgoing edges of fully-unset chance
nodes and leaving every other edge — and every node — unchanged. -/
def autoComputeSpec (g : Graph) : Graph :=
  { g with edges := g.edges.map (fun e =>
      if chanceAllUnset g e.source then setAutoProb g e else e) }

/-- The edges after the loop of `auto_compute_probabilities` has processed
the chance nodes of `pre`: an edge is updated once its source appears in
`pre` and satisfies the auto-assignment condition. -/
def hPart (g : Graph) (pre : List GNode) (e : GEdge) : GEdge :=
  if pre.any (fun dn => dn.id == e.source) && chanceAllUnset g e.source then
    setAutoProb g e
  else e

theorem setAutoProb_source (g : Graph) (e : GEdge) : (setAutoProb g e).source = e.source := rfl

theorem hPart_source (g : Graph) (pre : List GNode) (e : GEdge) :
    (hPart g pre e).source = e.source := by
  unfold hPart
  split
  · rfl
  · rfl

theorem outgoingE_map_hPart (g : Graph) (pre : List GNode) (es : List GEdge) (s : String) :
    outgoingE (es.map (hPart g pre)) s = (outgoingE es s).map (hPart g pre) := by
  unfold outgoingE
  rw [List.filter_map]
  congr 1
  apply List.filter_congr
  intro e _
  simp [Function.comp, hPart_source]

theorem hPart_append_single (g : Graph) (pre : List GNode) (dn : GNode) (e : GEdge) :
    hPart g (pre ++ [dn]) e =
      if (dn.id == e.source) && !pre.any (fun x => x.id == e.source)
          && chanceAllUnset g e.source then
        setAutoProb g e
      else hPart g pre e := by
  unfold hPart
  rw [List.any_append]
  simp only [List.any_cons, List.any_nil, Bool.or_false]
  by_cases h1 : (dn.id == e.source) = true <;>
    by_cases h2 : pre.any (fun x => x.id == e.source) = true <;>
    by_cases h3 : chanceAllUnset g e.source = true <;>
    simp [h1, h2, h3]

theorem probUnsetOrZero_setAutoProb (g : Graph) (e : GEdge) :
    probUnsetOrZero (setAutoProb g e)
      = (pyround3 (1 / ((outgoingE g.edges e.source).length : ℚ)) == 0) := by
  simp [probUnsetOrZero, setAutoProb]

theorem autoComputeStep_map_hPart (g : Graph) (pre : List GNode) (dn : GNode)
    (hdn : dn ∈ g.nodes) (hk : (dn.kind == some "chance") = true) :
    autoComputeStep (g.edges.map (hPart g pre)) dn = g.edges.map (hPart g (pre ++ [dn])) := by
  have hany : g.nodes.any (fun n => n.kind == some "chance" && n.id == dn.id) = true :=
    List.any_eq_true.mpr ⟨dn, hdn, by simp [hk]⟩
  have hsrcO : ∀ e ∈ outgoingE g.edges dn.id, e.source = dn.id := by
    intro e he
    simpa using (List.mem_filter.mp he).2
  have hout : outgoingE (g.edges.map (hPart g pre)) dn.id
      = (outgoingE g.edges dn.id).map (hPart g pre) := outgoingE_map_hPart g pre g.edges dn.id
  have hunchanged : (∀ e : GEdge, ¬(((dn.id == e.source && !pre.any fun x => x.id == e.source)
        && chanceAllUnset g e.source) = true)) →
      g.edges.map (hPart g pre) = g.edges.map (hPart g (pre ++ [dn])) := by
    intro hcond
    apply List.map_congr_left
    intro e _
    rw [hPart_append_single, if_neg (hcond e)]
  simp only [autoComputeStep]
  rw [hout]
  by_cases hpre : pre.any (fun x => x.id == dn.id) = true
  · -- a chance node with this id was already processed
    by_cases hcau : chanceAllUnset g dn.id = true
    · -- its outgoing probabilities already carry the auto value
      have hOset : ∀ e ∈ outgoingE g.edges dn.id, hPart g pre e = setAutoProb g e := by
        intro e he
        unfold hPart
        rw [if_pos (by rw [hsrcO e he]; simp [hpre, hcau])]
      have hne : ((outgoingE g.edges dn.id).isEmpty) = false := by
        have h0 := hcau
        unfold chanceAllUnset at h0
        rw [Bool.and_eq_true, Bool.and_eq_true] at h0
        simpa using h0.1.2
      have hne' : (((outgoingE g.edges dn.id).map (hPart g pre)).isEmpty) = false := by
        rw [List.isEmpty_eq_false_iff_exists_mem] at hne ⊢
        obtain ⟨x, hx⟩ := hne
        exact ⟨hPart g pre x, List.mem_map_of_mem _ hx⟩
      by_cases hzero : pyround3 (1 / ((outgoingE g.edges dn.id).length : ℚ)) = 0
      · -- the auto value is 0: the node is re-processed, rewriting the same value
        have hall : (((outgoingE g.edges dn.id).map (hPart g pre)).all probUnsetOrZero) = true := by
          rw [List.all_map]
          apply List.all_eq_true.mpr
          intro e he
          simp only [Function.comp]
          rw [hOset e he, probUnsetOrZero_setAutoProb, hsrcO e he]
          simpa only [beq_iff_eq] using hzero
        rw [if_pos (by simp [hne', hall])]
        rw [List.map_map]
        apply List.map_congr_left
        intro e _
        simp only [Function.comp]
        rw [hPart_append_single]
        by_cases hes : (e.source == dn.id) = true
        · have hes' : e.source = dn.id := by simpa using hes
          have h1 : hPart g pre e = setAutoProb g e := by
            unfold hPart
            rw [if_pos (by rw [hes']; simp [hpre, hcau])]
          rw [h1]
          rw [if_pos (by rw [setAutoProb_source, hes']; simp)]
          rw [ite_self]
          simp [setAutoProb, List.length_map, hes']
        · have hesf : (e.source == dn.id) = false := by
            rwa [Bool.not_eq_true] at hes
          have hdnf : (dn.id == e.source) = false := by
            simp only [beq_eq_false_iff_ne] at hesf ⊢
            exact fun h => hesf h.symm
          rw [if_neg (by rw [hPart_source, hesf]; simp)]
          rw [if_neg (by simp [hdnf])]
      · -- the auto value is nonzero: the all-unset test now fails, nothing changes
        have hall : (((outgoingE g.edges dn.id).map (hPart g pre)).all probUnsetOrZero) = false := by
          rw [List.all_eq_false]
          obtain ⟨x, hx⟩ := List.isEmpty_eq_false_iff_exists_mem.mp hne
          refine ⟨hPart g pre x, List.mem_map_of_mem _ hx, ?_⟩
          rw [hOset x hx, probUnsetOrZero_setAutoProb, hsrcO x hx]
          simp only [beq_iff_eq]
          exact hzero
        rw [if_neg (by simp [hall])]
        apply hunchanged
        intro e
        by_cases hes : e.source = dn.id
        · simp [hes, hpre]
        · have hdnf : (dn.id == e.source) = false := by
            simp only [beq_eq_false_iff_ne]
            exact fun h => hes h.symm
          simp [hdnf]
    · -- the node does not satisfy the auto-assignment condition at all
      have hOid : ∀ e ∈ outgoingE g.edges dn.id, hPart g pre e = e := by
        intro e he
        unfold hPart
        rw [if_neg (by rw [hsrcO e he]; simp [hcau])]
      have hmapO : (outgoingE g.edges dn.id).map (hPart g pre) = outgoingE g.edges dn.id := by
        rw [List.map_congr_left hOid]
        rw [show (fun a : GEdge => a) = id from rfl, List.map_id]
      rw [hmapO]
      have hcond : (!(outgoingE g.edges dn.id).isEmpty
          && (outgoingE g.edges dn.id).all probUnsetOrZero) = false := by
        have h0 : chanceAllUnset g dn.id = false := by rwa [Bool.not_eq_true] at hcau
        unfold chanceAllUnset at h0
        rw [hany] at h0
        simpa [Bool.and_assoc] using h0
      rw [if_neg (by simp [hcond])]
      apply hunchanged
      intro e
      by_cases hes : e.source = dn.id
      · have h0 : chanceAllUnset g dn.id = false := by rwa [Bool.not_eq_true] at hcau
        simp [hes, h0]
      · have hdnf : (dn.id == e.source) = false := by
          simp only [beq_eq_false_iff_ne]
          exact fun h => hes h.symm
        simp [hdnf]
  · -- the node id has not been processed before
    have hpref : (pre.any fun x => x.id == dn.id) = false := by
      rwa [Bool.not_eq_true] at hpre
    have hOid : ∀ e ∈ outgoingE g.edges dn.id, hPart g pre e = e := by
      intro e he
      unfold hPart
      rw [if_neg (by rw [hsrcO e he]; simp [hpref])]
    have hmapO : (outgoingE g.edges dn.id).map (hPart g pre) = outgoingE g.edges dn.id := by
      rw [List.map_congr_left hOid]
      rw [show (fun a : GEdge => a) = id from rfl, List.map_id]
    rw [hmapO]
    by_cases hcond : (!(outgoingE g.edges dn.id).isEmpty
        && (outgoingE g.edges dn.id).all probUnsetOrZero) = true
    · -- first processing and the condition holds: the auto value is written
      have hcau : chanceAllUnset g dn.id = true := by
        unfold chanceAllUnset
        rw [hany]
        simpa [Bool.and_assoc] using hcond
      rw [if_pos hcond]
      rw [List.map_map]
      apply List.map_congr_left
      intro e _
      simp only [Function.comp]
      rw [hPart_append_single]
      by_cases hes : (e.source == dn.id) = true
      · have hes' : e.source = dn.id := by simpa using hes
        have h1 : hPart g pre e = e := by
          unfold hPart
          rw [if_neg (by rw [hes']; simp [hpref])]
        rw [h1]
        rw [if_pos hes]
        rw [if_pos (by rw [hes']; simp [hpref, hcau])]
        simp [setAutoProb, hes']
      · have hesf : (e.source == dn.id) = false := by
          rwa [Bool.not_eq_true] at hes
        have hdnf : (dn.id == e.source) = false := by
          simp only [beq_eq_false_iff_ne] at hesf ⊢
          exact fun h => hesf h.symm
        have h2 : ((hPart g pre e).source == dn.id) = false := by
          rw [hPart_source]
          exact hesf
        rw [if_neg (by simp [h2])]
        rw [if_neg (by simp [hdnf])]
    · -- first processing and the condition fails: nothing changes
      have hcau : chanceAllUnset g dn.id = false := by
        unfold chanceAllUnset
        rw [hany]
        simpa [Bool.and_assoc] using hcond
      rw [if_neg (by simpa using hcond)]
      apply hunchanged
      intro e
      by_cases hes : e.source = dn.id
      · simp [hes, hcau]
      · have hdnf : (dn.id == e.source) = false := by
          simp only [beq_eq_false_iff_ne]
          exact fun h => hes h.symm
        simp [hdnf]

theorem foldl_autoComputeStep (g : Graph) :
    ∀ ds : List GNode, (∀ dn ∈ ds, dn ∈ g.nodes ∧ (dn.kind == some "chance") = true) →
    ∀ pre : List GNode,
      ds.foldl autoComputeStep (g.edges.map (hPart g pre))
        = g.edges.map (hPart g (pre ++ ds)) := by
  intro ds
  induction ds with
  | nil => intro _ pre; simp
  | cons dn ds ih =>
    intro h pre
    have hdn := h dn (List.mem_cons_self dn ds)
    rw [List.foldl_cons, autoComputeStep_map_hPart g pre dn hdn.1 hdn.2,
      ih (fun x hx => h x (List.mem_cons_of_mem dn hx)) (pre ++ [dn]),
      List.append_assoc]
    rfl

/-- C10: `auto_compute_probabilities` equals the one-pass specification map:
it sets `prob = round(1/k, 3)` on each of the `k` outgoing edges of every
chance node whose outgoing edges all have `prob` missing, `None` or `0`, and
leaves every other edge's `prob`, every other edge field, and the node list
unchanged. -/
theorem c10_auto_compute_refines (g : Graph) :
    auto_compute_probabilities g = autoComputeSpec g := by
  unfold auto_compute_probabilities autoComputeSpec
  congr 1
  have h0 : g.edges.map (hPart g []) = g.edges := by
    have : ∀ e ∈ g.edges, hPart g [] e = e := by
      intro e _
      unfold hPart
      rw [if_neg (by simp)]
    rw [List.map_congr_left this]
    rw [show (fun a : GEdge => a) = id from rfl, List.map_id]
  have hmem : ∀ dn ∈ g.nodes.filter (fun n => n.kind == some "chance"),
      dn ∈ g.nodes ∧ (dn.kind == some "chance") = true := by
    intro dn hdn
    exact ⟨(List.mem_filter.mp hdn).1, (List.mem_filter.mp hdn).2⟩
  calc (g.nodes.filter (fun n => n.kind == some "chance")).foldl autoComputeStep g.edges
      = (g.nodes.filter (fun n => n.kind == some "chance")).foldl autoComputeStep
          (g.edges.map (hPart g [])) := by rw [h0]
    _ = g.edges.map (hPart g ([] ++ g.nodes.filter (fun n => n.kind == some "chance"))) :=
        foldl_autoComputeStep g _ hmem []
    _ = g.edges.map (fun e => if chanceAllUnset g e.source then setAutoProb g e else e) := by
        apply List.map_congr_left
        intro e _
        rw [List.nil_append]
        unfold hPart
        by_cases hcau : chanceAllUnset g e.source = true
        · have hany : (g.nodes.filter (fun n => n.kind == some "chance")).any
              (fun dn => dn.id == e.source) = true := by
            have h1 := hcau
            unfold chanceAllUnset at h1
            rw [Bool.and_eq_true, Bool.and_eq_true] at h1
            obtain ⟨n, hn, hnc⟩ := List.any_eq_true.mp h1.1.1
            rw [Bool.and_eq_true] at hnc
            exact List.any_eq_true.mpr
              ⟨n, List.mem_filter.mpr ⟨hn, hnc.1⟩, hnc.2⟩
          rw [if_pos (by simp [hany, hcau]), if_pos hcau]
        · have hcau' : chanceAllUnset g e.source = false := by
            rwa [Bool.not_eq_true] at hcau
          rw [if_neg (by simp [hcau']), if_neg (by simp [hcau'])]

/-!
Claims C1 and C4: the pathway enumerator.
-/

theorem findNode_mem (g : Graph) (i : String) (n : GNode) (h : findNode g i = some n) :
    n ∈ g.nodes ∧ n.id = i := by
  refine ⟨List.mem_of_find?_eq_some h, ?_⟩
  have := List.find?_some h
  simpa using this

theorem mem_outIndex (g : Graph) (s : String) (e : GEdge) (h : e ∈ outIndex g s) :
    e ∈ normEdges g ∧ e.source = s := by
  refine ⟨(List.mem_filter.mp h).1, ?_⟩
  simpa using (List.mem_filter.mp h).2

theorem mem_normEdges_target (g : Graph) (e : GEdge) (h : e ∈ normEdges g) :
    (findNode g e.target).isSome = true := by
  have h2 := (List.mem_filter.mp h).2
  rw [Bool.and_eq_true] at h2
  exact h2.2

theorem mem_of_seqJoin :
    ∀ (l : List (Option (List Pathway))) (ps : List Pathway), seqJoin l = some ps →
      ∀ pw ∈ ps, ∃ o ∈ l, ∃ chunk, o = some chunk ∧ pw ∈ chunk := by
  intro l
  induction l with
  | nil =>
    intro ps h pw hpw
    injection h with h
    subst h
    cases hpw
  | cons o rest ih =>
    intro ps h pw hpw
    cases o with
    | none => cases h
    | some qs =>
      simp only [seqJoin, Option.map_eq_some'] at h
      obtain ⟨ps', hps', rfl⟩ := h
      rcases List.mem_append.mp hpw with h1 | h2
      · exact ⟨some qs, List.mem_cons_self _ _, qs, rfl, h1⟩
      · obtain ⟨o', ho', chunk, hoc, hc⟩ := ih ps' hps' pw h2
        exact ⟨o', List.mem_cons_of_mem _ ho', chunk, hoc, hc⟩

theorem seqJoin_isSome :
    ∀ l : List (Option (List Pathway)), (∀ o ∈ l, o.isSome = true) →
      (seqJoin l).isSome = true := by
  intro l
  induction l with
  | nil => intro _; rfl
  | cons o rest ih =>
    intro h
    cases ho : o with
    | none =>
      have := h o (List.mem_cons_self _ _)
      rw [ho] at this
      cases this
    | some qs =>
      have hrest := ih (fun x hx => h x (List.mem_cons_of_mem _ hx))
      obtain ⟨ps', hps'⟩ := Option.isSome_iff_exists.mp hrest
      simp [seqJoin, hps']

theorem seqJoin_sum (es : List GEdge) (f : GEdge → Option (List Pathway)) (w : GEdge → ℚ)
    (h : ∀ e ∈ es, ∀ qs, f e = some qs → (qs.map Pathway.probability).sum = w e) :
    ∀ ps, seqJoin (es.map f) = some ps →
      (ps.map Pathway.probability).sum = (es.map w).sum := by
  induction es with
  | nil =>
    intro ps hps
    injection hps with hps
    subst hps
    simp
  | cons e es ih =>
    intro ps hps
    rw [List.map_cons] at hps
    cases hfe : f e with
    | none => rw [hfe] at hps; cases hps
    | some qs =>
      rw [hfe] at hps
      simp only [seqJoin, Option.map_eq_some'] at hps
      obtain ⟨ps', hps', rfl⟩ := hps
      rw [List.map_append, List.sum_append, List.map_cons, List.sum_cons,
        h e (List.mem_cons_self _ _) qs hfe,
        ih (fun x hx => h x (List.mem_cons_of_mem _ hx)) ps' hps']

theorem weightProd_cons (e : GEdge) (es : List GEdge) :
    weightProd (e :: es) = e.data.prob.getD 1 * weightProd es := by
  simp [weightProd]

/-- Every pathway emitted by the depth-first enumeration from `n` with
accumulated probability `p` has probability `p` times the product of the
weights of some maximal edge-trace from `n`. -/
theorem enumFrom_prob (g : Graph) :
    ∀ (fuel : ℕ) (n : GNode) (steps : List String) (p c b v : ℚ) (ps : List Pathway),
      enumFrom g fuel n steps p c b v = some ps →
      ∀ pw ∈ ps, ∃ es, EdgeTrace g n.id es ∧ pw.probability = p * weightProd es := by
  intro fuel
  induction fuel with
  | zero =>
    intro n steps p c b v ps h
    cases h
  | succ fuel ih =>
    intro n steps p c b v ps h pw hpw
    simp only [enumFrom] at h
    by_cases hout : (outIndex g n.id).isEmpty = true
    · rw [if_pos hout] at h
      injection h with h
      subst h
      rcases List.mem_singleton.mp hpw with rfl
      refine ⟨[], EdgeTrace.terminal n.id (List.isEmpty_iff.mp hout), ?_⟩
      simp [weightProd]
    · rw [if_neg hout] at h
      obtain ⟨o, ho, chunk, hoc, hpwc⟩ := mem_of_seqJoin _ ps h pw hpw
      obtain ⟨e, he, hfe⟩ := List.mem_map.mp ho
      obtain ⟨hen, hes⟩ := mem_outIndex g n.id e he
      cases hft : findNode g e.target with
      | none =>
        exfalso
        have := mem_normEdges_target g e hen
        rw [hft] at this
        cases this
      | some t =>
        rw [hft] at hfe
        rw [← hfe] at hoc
        obtain ⟨es', htr, hprob⟩ := ih t _ _ _ _ _ chunk hoc pw hpwc
        have htid := (findNode_mem g e.target t hft).2
        refine ⟨e :: es', EdgeTrace.step n.id e es' he (by rwa [htid] at htr), ?_⟩
        rw [hprob, weightProd_cons, mul_assoc]

/-- C1: every pathway returned by the enumerator has probability equal to the
product of the explicit weights of the edges traversed along some maximal
root-to-terminal edge-trace, a missing weight contributing a factor of 1.0. -/
theorem c1_pathway_probability (g : Graph) (ps : List Pathway) (pw : Pathway)
    (h : pathways g = some ps) (hpw : pw ∈ ps) :
    ∃ r es, r ∈ roots g ∧ EdgeTrace g r.id es ∧ pw.probability = weightProd es := by
  unfold pathways at h
  obtain ⟨o, ho, chunk, hoc, hpwc⟩ := mem_of_seqJoin _ ps h pw hpw
  obtain ⟨r, hr, hfr⟩ := List.mem_map.mp ho
  rw [← hfr] at hoc
  obtain ⟨es, htr, hp⟩ := enumFrom_prob g (g.nodes.length + 1) r [] 1 0 0 0 chunk hoc pw hpwc
  exact ⟨r, es, hr, htr, by rwa [one_mul] at hp⟩

/-- A two-node graph: chance root `a` with one labeled edge of probability
`0.3` to the outcome `b`. -/
def c1WGraph : Graph :=
  ⟨[⟨"a", ⟨"A", none, none, none⟩, some "chance"⟩,
    ⟨"b", ⟨"B", none, none, none⟩, some "outcome"⟩],
   [⟨"e1", "a", "b", some "yes", ⟨some (3 / 10)⟩⟩]⟩

/-- Witness for C1 at `c1WGraph`: the single enumerated pathway has
probability `0.3`, the product of the one traversed weight. -/
theorem c1_pathway_probability_witness :
    ∃ r es, r ∈ roots c1WGraph ∧ EdgeTrace c1WGraph r.id es ∧
      (Pathway.mk ["A", "[yes]", "B"] (3 / 10) 0 0 0).probability = weightProd es :=
  c1_pathway_probability c1WGraph [⟨["A", "[yes]", "B"], 3 / 10, 0, 0, 0⟩]
    ⟨["A", "[yes]", "B"], 3 / 10, 0, 0, 0⟩
    (by simp [pathways, pathwaysFrom, enumFrom, roots, normEdges, findNode, outIndex,
          seqJoin, c1WGraph, List.filter_cons])
    (List.mem_singleton.mpr rfl)

/-- With a topological rank (edges strictly increase it, values bounded by the
node count — the standard characterization of acyclicity), the enumeration
succeeds whenever the remaining fuel exceeds the remaining rank budget. -/
theorem enumFrom_isSome (g : Graph) (rank : String → ℕ)
    (hr : ∀ e ∈ normEdges g, rank e.source < rank e.target)
    (hb : ∀ n ∈ g.nodes, rank n.id < g.nodes.length) :
    ∀ (fuel : ℕ) (n : GNode) (steps : List String) (p c b v : ℚ), n ∈ g.nodes →
      g.nodes.length - rank n.id < fuel →
      (enumFrom g fuel n steps p c b v).isSome = true := by
  intro fuel
  induction fuel with
  | zero =>
    intro n steps p c b v hn hf
    omega
  | succ fuel ih =>
    intro n steps p c b v hn hf
    simp only [enumFrom]
    by_cases hout : (outIndex g n.id).isEmpty = true
    · rw [if_pos hout]; rfl
    · rw [if_neg hout]
      apply seqJoin_isSome
      intro o ho
      obtain ⟨e, he, hfe⟩ := List.mem_map.mp ho
      obtain ⟨hen, hes⟩ := mem_outIndex g n.id e he
      cases hft : findNode g e.target with
      | none =>
        exfalso
        have := mem_normEdges_target g e hen
        rw [hft] at this
        cases this
      | some t =>
        rw [hft] at hfe
        rw [← hfe]
        have htmem := (findNode_mem g e.target t hft).1
        have htid := (findNode_mem g e.target t hft).2
        apply ih t _ _ _ _ _ htmem
        have h1 : rank n.id < rank t.id := by
          rw [htid, ← hes]
          exact hr e hen
        have h2 : rank n.id < g.nodes.length := hb n hn
        omega

/-- When every branching node's outgoing weights (missing weight = 1.0) sum
to 1, the probabilities of the pathways enumerated from `n` with accumulated
probability `p` sum to `p`. -/
theorem enumFrom_sum (g : Graph)
    (hsum : ∀ n ∈ g.nodes, (outIndex g n.id).isEmpty = false →
      ((outIndex g n.id).map (fun e => e.data.prob.getD 1)).sum = 1) :
    ∀ (fuel : ℕ) (n : GNode) (steps : List String) (p c b v : ℚ) (ps : List Pathway),
      n ∈ g.nodes → enumFrom g fuel n steps p c b v = some ps →
      (ps.map Pathway.probability).sum = p := by
  intro fuel
  induction fuel with
  | zero =>
    intro n steps p c b v ps _ h
    cases h
  | succ fuel ih =>
    intro n steps p c b v ps hn h
    simp only [enumFrom] at h
    by_cases hout : (outIndex g n.id).isEmpty = true
    · rw [if_pos hout] at h
      injection h with h
      subst h
      simp
    · rw [if_neg hout] at h
      have hchild : ∀ e ∈ outIndex g n.id, ∀ qs,
          (match findNode g e.target with
            | some t => enumFrom g fuel t
                (match e.label with
                  | some l => (steps ++ [n.data.label]) ++ ["[" ++ l ++ "]"]
                  | none => steps ++ [n.data.label])
                (p * e.data.prob.getD 1) (c + n.data.cost.getD 0)
                (b + n.data.benefit.getD 0) (v + n.data.value.getD 0)
            | none => some []) = some qs →
          (qs.map Pathway.probability).sum = p * e.data.prob.getD 1 := by
        intro e he qs hqs
        obtain ⟨hen, _⟩ := mem_outIndex g n.id e he
        cases hft : findNode g e.target with
        | none =>
          exfalso
          have := mem_normEdges_target g e hen
          rw [hft] at this
          cases this
        | some t =>
          rw [hft] at hqs
          exact ih t _ _ _ _ _ qs (findNode_mem g e.target t hft).1 hqs
      have := seqJoin_sum (outIndex g n.id) _ (fun e => p * e.data.prob.getD 1) hchild ps h
      rw [this, List.sum_map_mul_left, hsum n hn (by rwa [Bool.not_eq_true] at hout), mul_one]

/-- C4 as amended: for every graph admitting a topological rank (acyclic) in
which every node that has outgoing edges carries effective outgoing weights
(explicit `prob`, else 1.0) summing to 1, the probabilities of the pathways
enumerated from a root sum to exactly 1 in rational arithmetic.  (The claim's
hypothesis on chance nodes alone fails: an unweighted decision branch
multiplies the pathway count without splitting probability.) -/
theorem c4_root_probability_sum (g : Graph) (rank : String → ℕ)
    (hr : ∀ e ∈ normEdges g, rank e.source < rank e.target)
    (hb : ∀ n ∈ g.nodes, rank n.id < g.nodes.length)
    (hsum : ∀ n ∈ g.nodes, (outIndex g n.id).isEmpty = false →
      ((outIndex g n.id).map (fun e => e.data.prob.getD 1)).sum = 1)
    (r : GNode) (hroot : r ∈ roots g) :
    ∃ ps, pathwaysFrom g r = some ps ∧ (ps.map Pathway.probability).sum = 1 := by
  have hrn : r ∈ g.nodes := (List.mem_filter.mp hroot).1
  have h1 := enumFrom_isSome g rank hr hb (g.nodes.length + 1) r [] 1 0 0 0 hrn
    (by have := hb r hrn; omega)
  obtain ⟨ps, hps⟩ := Option.isSome_iff_exists.mp h1
  exact ⟨ps, hps, enumFrom_sum g hsum (g.nodes.length + 1) r [] 1 0 0 0 ps hrn hps⟩

/-- A decision-rooted graph: `d` (kind decision) branches to the outcomes `x`
and `y` over two unweighted edges. -/
def c4Graph : Graph :=
  ⟨[⟨"d", ⟨"D", none, none, none⟩, some "decision"⟩,
    ⟨"x", ⟨"X", none, none, none⟩, some "outcome"⟩,
    ⟨"y", ⟨"Y", none, none, none⟩, some "outcome"⟩],
   [⟨"e1", "d", "x", none, ⟨none⟩⟩,
    ⟨"e2", "d", "y", none, ⟨none⟩⟩]⟩

/-- Counterexample to C4: `c4Graph` is acyclic (a topological rank exists)
and every chance node's explicit outgoing probabilities sum to 1 (vacuously:
there are none), yet the two pathways enumerated from its single root both
carry probability 1, summing to 2, not 1. -/
theorem c4_counterexample :
    (∃ rank : String → ℕ, (∀ e ∈ normEdges c4Graph, rank e.source < rank e.target) ∧
      ∀ n ∈ c4Graph.nodes, rank n.id < c4Graph.nodes.length) ∧
    (∀ n ∈ c4Graph.nodes, n.kind = some "chance" → outgoingProbs c4Graph.edges n.id = 1) ∧
    roots c4Graph = [⟨"d", ⟨"D", none, none, none⟩, some "decision"⟩] ∧
    pathwaysFrom c4Graph ⟨"d", ⟨"D", none, none, none⟩, some "decision"⟩
      = some [⟨["D", "X"], 1, 0, 0, 0⟩, ⟨["D", "Y"], 1, 0, 0, 0⟩] ∧
    (([⟨["D", "X"], 1, 0, 0, 0⟩, ⟨["D", "Y"], 1, 0, 0, 0⟩] : List Pathway).map
      Pathway.probability).sum = 2 := by
  refine ⟨⟨fun s => if s == "d" then 0 else 1, by decide, by decide⟩, ?_, by decide, ?_, ?_⟩
  · intro n hn hk
    fin_cases hn <;> simp_all
  · simp [pathwaysFrom, enumFrom, normEdges, findNode, outIndex, seqJoin, c4Graph,
      List.filter_cons]
  · norm_num

/-- A chance-rooted graph: `a` (kind chance) branches to the outcomes `b` and
`c` with explicit probabilities `0.5` and `0.5`. -/
def c4WGraph : Graph :=
  ⟨[⟨"a", ⟨"A", none, none, none⟩, some "chance"⟩,
    ⟨"b", ⟨"B", none, none, none⟩, some "outcome"⟩,
    ⟨"c", ⟨"C", none, none, none⟩, some "outcome"⟩],
   [⟨"e1", "a", "b", none, ⟨some (1 / 2)⟩⟩,
    ⟨"e2", "a", "c", none, ⟨some (1 / 2)⟩⟩]⟩

/-- Witness for the amended C4 at `c4WGraph`: the enumeration from the root
succeeds and its pathway probabilities sum to 1. -/
theorem c4_root_probability_sum_witness :
    ∃ ps, pathwaysFrom c4WGraph ⟨"a", ⟨"A", none, none, none⟩, some "chance"⟩ = some ps ∧
      (ps.map Pathway.probability).sum = 1 := by
  apply c4_root_probability_sum c4WGraph (fun s => if s == "a" then 0 else 1)
    (by decide) (by decide) ?_ _ (by decide)
  intro n hn hne
  fin_cases hn
  · have h1 : (outIndex c4WGraph "a").map (fun e => e.data.prob.getD 1)
        = [1 / 2, 1 / 2] := by
      simp [outIndex, normEdges, findNode, c4WGraph, List.filter_cons]
    simp only [h1]
    norm_num
  · exfalso
    simp [outIndex, normEdges, findNode, c4WGraph, List.filter_cons] at hne
  · exfalso
    simp [outIndex, normEdges, findNode, c4WGraph, List.filter_cons] at hne
